import Mathlib

/-!
Verification development for the query engine of a bilingual
Chinese/English/Pinyin dictionary (TypeScript sources `lib/pinyin.ts` and
`lib/search.ts`).  The TypeScript functions are embedded as executable Lean
definitions over `List Char` / `String`; character case folding is modelled
at ASCII level (the fragment the engine's data actually exercises).
-/

namespace ChineseNext

/-- ASCII lower-casing table, modelling `String.prototype.toLowerCase`
on the ASCII letters. -/
def upPairs : List (Char × Char) :=
  [('A','a'), ('B','b'), ('C','c'), ('D','d'), ('E','e'), ('F','f'), ('G','g'),
   ('H','h'), ('I','i'), ('J','j'), ('K','k'), ('L','l'), ('M','m'), ('N','n'),
   ('O','o'), ('P','p'), ('Q','q'), ('R','r'), ('S','s'), ('T','t'), ('U','u'),
   ('V','v'), ('W','w'), ('X','x'), ('Y','y'), ('Z','z')]

/-- Lower-case one character (ASCII model of JS `toLowerCase`). -/
def lowerChar (c : Char) : Char :=
  (((upPairs.find? (fun p => p.1 = c)).map Prod.snd)).getD c

/-- Lower-case a character list. -/
def lowerStr (l : List Char) : List Char := l.map lowerChar

/-- `TONE_MARKS` of `pinyin.ts`: for each base vowel the five tone forms
(index 0 = tone 1, ..., index 4 = neutral/plain). -/
def TONE_MARKS (c : Char) : Option (List Char) :=
  if c = 'a' then some ['ā', 'á', 'ǎ', 'à', 'a']
  else if c = 'e' then some ['ē', 'é', 'ě', 'è', 'e']
  else if c = 'i' then some ['ī', 'í', 'ǐ', 'ì', 'i']
  else if c = 'o' then some ['ō', 'ó', 'ǒ', 'ò', 'o']
  else if c = 'u' then some ['ū', 'ú', 'ǔ', 'ù', 'u']
  else if c = 'ü' then some ['ǖ', 'ǘ', 'ǚ', 'ǜ', 'ü']
  else none

/-- `TONE_MARK_TO_NUMBER` of `pinyin.ts` as an association list: each
(possibly marked) vowel character with its base vowel and tone number
(plain vowels carry tone 5). -/
def toneMarkPairs : List (Char × Char × Nat) :=
  [('ā', 'a', 1), ('á', 'a', 2), ('ǎ', 'a', 3), ('à', 'a', 4), ('a', 'a', 5),
   ('ē', 'e', 1), ('é', 'e', 2), ('ě', 'e', 3), ('è', 'e', 4), ('e', 'e', 5),
   ('ī', 'i', 1), ('í', 'i', 2), ('ǐ', 'i', 3), ('ì', 'i', 4), ('i', 'i', 5),
   ('ō', 'o', 1), ('ó', 'o', 2), ('ǒ', 'o', 3), ('ò', 'o', 4), ('o', 'o', 5),
   ('ū', 'u', 1), ('ú', 'u', 2), ('ǔ', 'u', 3), ('ù', 'u', 4), ('u', 'u', 5),
   ('ǖ', 'ü', 1), ('ǘ', 'ü', 2), ('ǚ', 'ü', 3), ('ǜ', 'ü', 4), ('ü', 'ü', 5)]

/-- Lookup in `TONE_MARK_TO_NUMBER`. -/
def toneMarkInfo (c : Char) : Option (Char × Nat) :=
  (toneMarkPairs.find? (fun p => p.1 = c)).map Prod.snd

/-- `v` → `ü` (the engine treats `v` as an input alias of `ü`). -/
def vmap (c : Char) : Char := if c = 'v' then 'ü' else c

/-- `ü` → `v` (back-conversion for storage/search keys). -/
def unvmap (c : Char) : Char := if c = 'ü' then 'v' else c

/-- Tone digit `1`-`5` test. -/
def isToneDigit (c : Char) : Bool := '1' ≤ c && c ≤ '5'

/-- Replace a (possibly marked) vowel by its base vowel; other characters
are unchanged.  Character-level form of the mark-stripping loop. -/
def markBase (c : Char) : Char :=
  match toneMarkInfo c with
  | some (v, _) => v
  | none => c

/-- One character of `normalizePinyinInput`: lower-case, `v`→`ü`, drop tone
digits, strip tone marks to base vowels, then `ü`→`v`. -/
def normChar (c : Char) : Option Char :=
  if isToneDigit (vmap (lowerChar c)) then none
  else some (unvmap (markBase (vmap (lowerChar c))))

/-- `normalizePinyinInput` of `pinyin.ts` on character lists. -/
def normalizePinyinList (l : List Char) : List Char := l.filterMap normChar

/-- `normalizePinyinInput` of `pinyin.ts`. -/
def normalizePinyinInput (s : String) : String := ⟨normalizePinyinList s.data⟩

example : normalizePinyinInput "NI3" = "ni" := by decide
example : normalizePinyinInput "lǜ4" = "lv" := by decide
example : normalizePinyinInput "ni3 hao3" = "ni hao" := by decide

/-- Lower-case ASCII letter test (`[a-z]`). -/
def isLowerAZ (c : Char) : Bool := 'a' ≤ c && c ≤ 'z'

/-- Character class `[a-zü]` of the syllable regex in `toneNumberToMark`. -/
def isBaseLetter (c : Char) : Bool := isLowerAZ c || c = 'ü'

/-- Split a (lower-cased, `v`→`ü`) syllable according to the regex
`^([a-zü]+)([1-5])?$`: the base letters and the tone (5 when absent).
`none` when the input does not match. -/
def splitBaseTone (s : List Char) : Option (List Char × Nat) :=
  match s.getLast? with
  | none => none
  | some last =>
    if isToneDigit last then
      if !s.dropLast.isEmpty && s.dropLast.all isBaseLetter then
        some (s.dropLast, last.toNat - 48)
      else none
    else if !s.isEmpty && s.all isBaseLetter then some (s, 5) else none

/-- Vowel test used by `toneNumberToMark` (`'aeiouü'`). -/
def isVowel (c : Char) : Bool :=
  c = 'a' || c = 'e' || c = 'i' || c = 'o' || c = 'u' || c = 'ü'

/-- Does the base contain the letter sequence `ou`? (`base.includes('ou')`). -/
def containsOU : List Char → Bool
  | 'o' :: 'u' :: _ => true
  | _ :: rest => containsOU rest
  | [] => false

/-- The vowel positions of the base, in reading order. -/
def vowelPositions (base : List Char) : List (Nat × Char) :=
  base.enum.filter (fun p => isVowel p.2)

/-- Rule 3: second vowel if there are at least two, else the only one. -/
def noSecond (vps : List (Nat × Char)) : Option Nat :=
  match vps with
  | _ :: p2 :: _ => some p2.1
  | [p1] => some p1.1
  | [] => none

/-- Which position receives the tone mark: first `a`/`e`; else the `o` of an
`ou`; else the second vowel (or the only one).  `none` iff no vowel. -/
def markPosOf (base : List Char) : Option Nat :=
  match ((vowelPositions base).filter (fun p => p.2 = 'a' || p.2 = 'e')).head? with
  | some p => some p.1
  | none =>
    if containsOU base then
      match ((vowelPositions base).filter (fun p => p.2 = 'o')).head? with
      | some p => some p.1
      | none => noSecond (vowelPositions base)
    else noSecond (vowelPositions base)

/-- Place the mark for `tone` (1-4) on position `pos` of the base. -/
def applyMark (base : List Char) (pos : Nat) (tone : Nat) : List Char :=
  match TONE_MARKS (base.getD pos ' ') with
  | some marks => base.set pos (marks.getD (tone - 1) ' ')
  | none => base

/-- `toneNumberToMark` of `pinyin.ts`: convert a tone-numbered syllable to
its diacritic form (e.g. `ni3` → `nǐ`); lenient fallback on malformed
input returns the lower-cased, `v`→`ü`-mapped input. -/
def toneNumberToMark (syllable : String) : String :=
  let s := (lowerStr syllable.data).map vmap
  match splitBaseTone s with
  | none => ⟨s⟩
  | some (base, tone) =>
    if tone = 5 then ⟨base⟩
    else
      match markPosOf base with
      | none => ⟨base⟩
      | some pos => ⟨applyMark base pos tone⟩

/-- The digit character of a tone in 1-4 (written via `toString` in JS). -/
def toneDigitChar : Nat → Char
  | 1 => '1'
  | 2 => '2'
  | 3 => '3'
  | 4 => '4'
  | _ => '5'

/-- One character's contribution to the accumulated tone: a diacritic
with tone below 5 overrides the accumulator. -/
def toneStep (acc : Nat) (c : Char) : Nat :=
  match toneMarkInfo c with
  | some (_, t) => if t < 5 then t else acc
  | none => acc

/-- The tone of the last diacritic-bearing character, 5 when none. -/
def lastToneAux : List Char → Nat → Nat
  | [], acc => acc
  | c :: cs, acc => lastToneAux cs (toneStep acc c)

/-- `toneMarkToNumber` of `pinyin.ts`: strip diacritics to base vowels,
re-encode `ü` as `v`, and append the tone digit of the last diacritic
encountered (nothing appended for neutral tone). -/
def toneMarkToNumber (syllable : String) : String :=
  let base := (syllable.data.map markBase).map unvmap
  let tone := lastToneAux syllable.data 5
  if tone < 5 then ⟨base ++ [toneDigitChar tone]⟩ else ⟨base⟩

example : toneNumberToMark "ni3" = "nǐ" := by decide
example : toneNumberToMark "hao3" = "hǎo" := by decide
example : toneNumberToMark "lv4" = "lǜ" := by decide
example : toneNumberToMark "ou3" = "ǒu" := by decide
example : toneMarkToNumber "nǐ" = "ni3" := by decide
example : toneMarkToNumber "lǜ" = "lv4" := by decide
example : toneMarkToNumber (toneNumberToMark "jiong1") = "jiong1" := by decide

/-- `PINYIN_SYLLABLES` of `pinyin.ts`: all valid tone-less syllables
(`v` encodes `ü`). -/
def pinyinSyllables : List String :=
  ["a","o","e","ai","ei","ao","ou","an","en","ang","eng","er",
   "ba","bo","bi","bu","bai","bei","bao","ban","ben","bang","beng","bie","biao","bian","bin","bing",
   "pa","po","pi","pu","pai","pei","pao","pou","pan","pen","pang","peng","pie","piao","pian","pin","ping",
   "ma","mo","me","mi","mu","mai","mei","mao","mou","man","men","mang","meng","mie","miao","miu","mian","min","ming",
   "fa","fo","fu","fei","fou","fan","fen","fang","feng",
   "da","de","di","du","dai","dei","dao","dou","dan","den","dang","deng","die","diao","diu","dian","ding","dong","duan","dui","dun","duo",
   "ta","te","ti","tu","tai","tao","tou","tan","tang","teng","tie","tiao","tian","ting","tong","tuan","tui","tun","tuo",
   "na","ne","ni","nu","nv","nai","nei","nao","nou","nan","nen","nang","neng","nie","niao","niu","nian","nin","niang","ning","nong","nuan","nuo","nve",
   "la","le","li","lu","lv","lai","lei","lao","lou","lan","lang","leng","lie","liao","liu","lian","lin","liang","ling","long","luan","lun","luo","lve",
   "ga","ge","gu","gai","gei","gao","gou","gan","gen","gang","geng","gong","gua","guai","guan","guang","gui","gun","guo",
   "ka","ke","ku","kai","kei","kao","kou","kan","ken","kang","keng","kong","kua","kuai","kuan","kuang","kui","kun","kuo",
   "ha","he","hu","hai","hei","hao","hou","han","hen","hang","heng","hong","hua","huai","huan","huang","hui","hun","huo",
   "ji","ju","jia","jie","jiao","jiu","jian","jin","jiang","jing","jiong","juan","jue","jun",
   "qi","qu","qia","qie","qiao","qiu","qian","qin","qiang","qing","qiong","quan","que","qun",
   "xi","xu","xia","xie","xiao","xiu","xian","xin","xiang","xing","xiong","xuan","xue","xun",
   "zha","zhe","zhi","zhu","zhai","zhao","zhou","zhan","zhen","zhang","zheng","zhong","zhua","zhuai","zhuan","zhuang","zhui","zhun","zhuo",
   "cha","che","chi","chu","chai","chao","chou","chan","chen","chang","cheng","chong","chuai","chuan","chuang","chui","chun","chuo",
   "sha","she","shi","shu","shai","shao","shou","shan","shen","shang","sheng","shua","shuai","shuan","shuang","shui","shun","shuo",
   "re","ri","ru","rao","rou","ran","ren","rang","reng","rong","rua","ruan","rui","run","ruo",
   "za","ze","zi","zu","zai","zei","zao","zou","zan","zen","zang","zeng","zong","zuan","zui","zun","zuo",
   "ca","ce","ci","cu","cai","cao","cou","can","cen","cang","ceng","cong","cuan","cui","cun","cuo",
   "sa","se","si","su","sai","sao","sou","san","sen","sang","seng","song","suan","sui","sun","suo",
   "ya","yo","ye","yu","yai","yao","you","yan","yang","ying","yong","yuan","yue","yun",
   "wa","wo","wu","wai","wei","wan","wen","wang","weng"]

/-- Greedy matcher: try syllable lengths `n`, `n-1`, ..., `1` at the head
of `s`; return the first (longest) length whose head is a valid syllable. -/
def tryLen (s : List Char) : Nat → Option Nat
  | 0 => none
  | n + 1 =>
    if pinyinSyllables.contains ⟨s.take (n + 1)⟩ then some (n + 1)
    else tryLen s n

theorem tryLen_pos {s : List Char} {n l : Nat} (h : tryLen s n = some l) :
    1 ≤ l := by
  induction n with
  | zero => simp [tryLen] at h
  | succ k ih =>
    unfold tryLen at h
    split at h
    · simp only [Option.some.injEq] at h
      omega
    · exact ih h

/-- Greedy longest-match decomposition loop.  The fuel only bounds the
iteration count; every step consumes at least one character, so fuel equal
to the string length is never exhausted. -/
def canDecomposeGo : Nat → List Char → Bool
  | _, [] => true
  | 0, _ :: _ => false
  | fuel + 1, c :: rest =>
    match tryLen (c :: rest) (min 6 (c :: rest).length) with
    | some l => canDecomposeGo fuel ((c :: rest).drop l)
    | none => false

/-- `canDecomposeAsPinyin` of `pinyin.ts`: greedy longest-match
decomposition (syllables of up to 6 letters) that must consume the whole
string. -/
def canDecomposeAsPinyin (s : List Char) : Bool :=
  canDecomposeGo s.length s

/-- Model of the JS `\s` class restricted to ASCII whitespace. -/
def isSpaceChar (c : Char) : Bool :=
  c = ' ' || c = '\t' || c = '\n' || c = '\x0d' || c = '\x0b' || c = '\x0c'

/-- `isPinyin` of `pinyin.ts`: normalized text must consist of ASCII
letters and spaces and every whitespace-separated chunk must decompose
into valid pinyin syllables. -/
def isPinyin (text : String) : Bool :=
  if text.data.all isSpaceChar then false
  else
    let t := normalizePinyinList text.data
    if !(!t.isEmpty && t.all (fun c => isLowerAZ c || isSpaceChar c)) then false
    else
      let chunks := (t.splitOnP isSpaceChar).filter (fun c => !c.isEmpty)
      !chunks.isEmpty && chunks.all canDecomposeAsPinyin

/-- `isChinese` of `pinyin.ts` on a single character: CJK Unified
Ideographs, Extension A, or Extension B. -/
def isChineseChar (c : Char) : Bool :=
  (0x4e00 ≤ c.toNat && c.toNat ≤ 0x9fff) ||
  (0x3400 ≤ c.toNat && c.toNat ≤ 0x4dbf) ||
  (0x20000 ≤ c.toNat && c.toNat ≤ 0x2a6df)

/-- `isChinese` of `pinyin.ts`: does the text contain a Chinese character? -/
def isChinese (text : String) : Bool := text.data.any isChineseChar

example : isPinyin "ni3" = true := by decide
example : isPinyin "ni3 hao3" = true := by decide
example : isPinyin "nihao" = true := by decide
example : isPinyin "apple" = false := by decide
example : isPinyin "phone" = false := by decide
example : isPinyin "" = false := by decide
example : isChinese "好" = true := by decide
example : isChinese "hao" = false := by decide

/-! ## Query tokenizer (`search.ts`) -/

/-- `MAX_TOKENS` of `constants.ts`. -/
def MAX_TOKENS : Nat := 20

/-- Field scope of a token (`c:` / `p:` / `e:`). -/
inductive FieldTag where
  | chinese
  | pinyin
  | english
deriving DecidableEq, Repr

/-- `SearchToken` of `search.ts`. -/
structure SearchToken where
  term : String
  field : Option FieldTag
  exclude : Bool
  wildcard : Bool
  phrase : Bool
deriving DecidableEq, Repr

/-- JS `String.prototype.trim` (ASCII whitespace model). -/
def trimList (l : List Char) : List Char :=
  ((l.dropWhile isSpaceChar).reverse.dropWhile isSpaceChar).reverse

/-- JS trim on strings. -/
def jsTrim (s : String) : String := ⟨trimList s.data⟩

/-- Match the optional field-scope group `(c:|p:|e:)`. -/
def matchFieldPre : List Char → Option FieldTag × List Char
  | 'c' :: ':' :: r => (some .chinese, r)
  | 'p' :: ':' :: r => (some .pinyin, r)
  | 'e' :: ':' :: r => (some .english, r)
  | cs => (none, cs)

/-- Match the quoted-phrase branch `"([^"]+)"`: at least one non-quote
character between the first pair of double quotes. -/
def quoteMatch (cs : List Char) : Option (String × List Char) :=
  match cs with
  | '"' :: rest =>
    if (rest.takeWhile (fun c => c ≠ '"')).isEmpty then none
    else
      match rest.drop (rest.takeWhile (fun c => c ≠ '"')).length with
      | '"' :: rest2 => some (⟨rest.takeWhile (fun c => c ≠ '"')⟩, rest2)
      | _ => none
  | _ => none

/-- Build a token from matched groups (wildcard flag = term contains `*`). -/
def mkToken (exclude : Bool) (field : Option FieldTag) (term : String)
    (phrase : Bool) : SearchToken :=
  { term := term, field := field, exclude := exclude,
    wildcard := term.data.any (fun c => c = '*'), phrase := phrase }

/-- Match the `\S+` branch at `cs`: the maximal non-whitespace run, when
it is non-empty. -/
def runToken (exclude : Bool) (field : Option FieldTag) (cs : List Char) :
    Option (SearchToken × List Char) :=
  if !(cs.takeWhile (fun c => !isSpaceChar c)).isEmpty then
    some (mkToken exclude field ⟨cs.takeWhile (fun c => !isSpaceChar c)⟩ false,
      cs.drop (cs.takeWhile (fun c => !isSpaceChar c)).length)
  else none

/-- The token regex after the optional `-` group: optional field prefix,
then quoted phrase or `\S+`, with the regex engine's backtracking over the
optional groups made explicit (`orig` is the input including a consumed
`-`; field give-up and `-` give-up can only re-match `\S+`, since in those
branches the text starts with a prefix letter resp. `-`). -/
def afterDash (exclude : Bool) (orig cs1 : List Char) :
    Option (SearchToken × List Char) :=
  match quoteMatch (matchFieldPre cs1).2 with
  | some (content, rest) =>
    some (mkToken exclude (matchFieldPre cs1).1 content true, rest)
  | none =>
    match runToken exclude (matchFieldPre cs1).1 (matchFieldPre cs1).2 with
    | some r => some r
    | none =>
      match
        (if (matchFieldPre cs1).1.isSome then runToken exclude none cs1
         else none) with
      | some r => some r
      | none => if exclude then runToken false none orig else none

/-- One step of the token regex
`(-)?(?:(c:|p:|e:))?(?:"([^"]+)"|(\S+))` applied at the next possible
match position.  Returns the token and the rest of the input. -/
def nextMatch (cs0 : List Char) : Option (SearchToken × List Char) :=
  match cs0.dropWhile isSpaceChar with
  | [] => none
  | c :: cs' =>
    if c = '-' then afterDash true (c :: cs') cs'
    else afterDash false (c :: cs') (c :: cs')

/-- The tokenizer loop: scan left to right, stopping at `MAX_TOKENS`. -/
def parseLoop : Nat → List Char → List SearchToken
  | 0, _ => []
  | n + 1, cs =>
    match nextMatch cs with
    | none => []
    | some (tok, rest) => tok :: parseLoop n rest

/-- `parseQuery` of `search.ts`. -/
def parseQuery (query : String) : List SearchToken :=
  parseLoop MAX_TOKENS (trimList query.data)

/-! ## Token merger (`search.ts`) -/

/-- The run condition of `mergePinyinTokens`: non-excluded, unfielded,
non-wildcard, non-phrase, and classified as pinyin. -/
def mergeable (t : SearchToken) : Bool :=
  !t.exclude && t.field.isNone && !t.wildcard && !t.phrase && isPinyin t.term

/-- `.map(t => t.term).join(' ')` at the character level. -/
def joinTerms : List SearchToken → List Char
  | [] => []
  | [t] => t.term.data
  | t :: ts => t.term.data ++ ' ' :: joinTerms ts

/-- `flush()` of `mergePinyinTokens`: a buffered run of two or more tokens
becomes one synthetic unfielded token with the space-joined terms; a run of
one passes through; an empty buffer emits nothing. -/
def flushBuf (buf : List SearchToken) : List SearchToken :=
  if buf.length > 1 then
    [{ term := ⟨joinTerms buf⟩,
       field := none, exclude := false, wildcard := false, phrase := false }]
  else buf

/-- The merger loop with its pending-run buffer. -/
def mergeGo : List SearchToken → List SearchToken → List SearchToken
  | buf, [] => flushBuf buf
  | buf, t :: ts =>
    if mergeable t then mergeGo (buf ++ [t]) ts
    else flushBuf buf ++ t :: mergeGo [] ts

/-- `mergePinyinTokens` of `search.ts`. -/
def mergePinyinTokens (tokens : List SearchToken) : List SearchToken :=
  mergeGo [] tokens

example :
    parseQuery "ni3 hao3" =
      [⟨"ni3", none, false, false, false⟩, ⟨"hao3", none, false, false, false⟩] := by
  decide
example :
    mergePinyinTokens (parseQuery "ni3 hao3") =
      [⟨"ni3 hao3", none, false, false, false⟩] := by
  decide
example :
    parseQuery "apple -phone" =
      [⟨"apple", none, false, false, false⟩, ⟨"phone", none, true, false, false⟩] := by
  decide
example :
    parseQuery "-c:" = [⟨"c:", none, true, false, false⟩] := by decide
example :
    parseQuery "e:\"thank you\" x*" =
      [⟨"thank you", some .english, false, false, true⟩,
       ⟨"x*", none, false, true, false⟩] := by
  decide

/-! ## Entries and SQL predicate semantics -/

/-- A dictionary entry row as seen by the query engine (`DictEntry` plus
the `frequency` column used for ranking; the spec fixes it as a
non-negative count). -/
structure DictEntry where
  id : Nat
  traditional : String
  simplified : String
  pinyin : String
  pinyin_display : String
  pinyin_search : String
  pinyin_nospace : String
  definition : String
  frequency : Nat
deriving DecidableEq, Repr

/-- The entry columns a condition can target. -/
inductive FieldName where
  | traditional
  | simplified
  | pinyin_search
  | pinyin_nospace
  | definition
deriving DecidableEq, Repr

/-- The value of a column on a row. -/
def fieldVal (e : DictEntry) : FieldName → String
  | .traditional => e.traditional
  | .simplified => e.simplified
  | .pinyin_search => e.pinyin_search
  | .pinyin_nospace => e.pinyin_nospace
  | .definition => e.definition

/-- One `column LIKE pattern ESCAPE '\'` atom of a generated condition. -/
structure Atom where
  field : FieldName
  pattern : String
deriving DecidableEq, Repr

/-- A generated SQL condition: an OR of LIKE atoms, possibly negated. -/
inductive Cond where
  | ors (atoms : List Atom)
  | nt (c : Cond)
deriving DecidableEq, Repr

/-- SQL `LIKE ... ESCAPE '\'` matching loop (`%` = any run, `_` = any
character, `\x` = the literal `x`; ASCII-case-insensitive as in SQLite's
default collation).  The fuel only bounds the recursion; every step
strictly shrinks pattern+text, so fuel equal to their combined length is
never exhausted. -/
def likeGo : Nat → List Char → List Char → Bool
  | _, [], ts => ts.isEmpty
  | 0, _ :: _, _ => false
  | fuel + 1, '%' :: ps, ts =>
    likeGo fuel ps ts ||
      (match ts with
       | [] => false
       | _ :: ts2 => likeGo fuel ('%' :: ps) ts2)
  | fuel + 1, '\\' :: p :: ps, ts =>
    (match ts with
     | t :: ts2 => p = t && likeGo fuel ps ts2
     | [] => false)
  | _ + 1, ['\\'], _ => false
  | fuel + 1, '_' :: ps, ts =>
    (match ts with
     | _ :: ts2 => likeGo fuel ps ts2
     | [] => false)
  | fuel + 1, p :: ps, ts =>
    (match ts with
     | t :: ts2 => lowerChar p = lowerChar t && likeGo fuel ps ts2
     | [] => false)

/-- SQL LIKE match of a pattern against a text. -/
def likeMatch (ps ts : List Char) : Bool := likeGo (ps.length + ts.length) ps ts

/-- Truth of a LIKE atom on a row. -/
def evalAtom (e : DictEntry) (a : Atom) : Bool :=
  likeMatch a.pattern.data (fieldVal e a.field).data

/-- Truth of a generated condition on a row. -/
def evalCond (e : DictEntry) : Cond → Bool
  | .ors atoms => atoms.any (evalAtom e)
  | .nt c => !evalCond e c

example : likeMatch "%apple%".data "crab apple pie".data = true := by decide
example : likeMatch "%apple%".data "crabapp le".data = false := by decide
example : likeMatch "nihao%".data "nihaoma".data = true := by decide
example : likeMatch "chin%".data "leaning".data = false := by decide

/-! ## Condition builder (`buildCondition` of `search.ts`) -/

/-- `term.replace(/\*/g, '')`. -/
def stripStars (s : String) : String := ⟨s.data.filter (fun c => c ≠ '*')⟩

/-- `.replace(/ /g, '')`. -/
def removeSpaces (l : List Char) : List Char := l.filter (fun c => c ≠ ' ')

/-- Escape SQL LIKE metacharacters (`%` → `\%`, `_` → `\_`). -/
def escChar (c : Char) : List Char :=
  if c = '%' then ['\\', '%'] else if c = '_' then ['\\', '_'] else [c]

/-- `buildWildcardPattern` of `search.ts`: escape metacharacters first,
then turn each `*` into `%`. -/
def buildWildcardPattern (term : List Char) : List Char :=
  ((term.map escChar).flatten).map (fun c => if c = '*' then '%' else c)

/-- Field resolution of `buildCondition`: explicit scope, else
auto-detection on the term with wildcard stars stripped; the term itself
is normalized up front only for the explicit pinyin scope. -/
def fieldsAndTerm (token : SearchToken) : List FieldName × String :=
  match token.field with
  | some .chinese => ([.traditional, .simplified], token.term)
  | some .pinyin => ([.pinyin_search], normalizePinyinInput token.term)
  | some .english => ([.definition], token.term)
  | none =>
    if isChinese (stripStars token.term) then
      ([.traditional, .simplified], token.term)
    else if isPinyin (stripStars token.term) then
      ([.pinyin_search, .traditional, .simplified, .definition], token.term)
    else
      ([.definition, .traditional, .simplified, .pinyin_search], token.term)

/-- Wildcard-branch atom for one field: the pinyin field gets the pattern
rebuilt against the space-stripped normalized form (a `\x00` placeholder
protects the stars during normalization) and targets `pinyin_nospace`. -/
def wildcardAtom (term : String) (f : FieldName) : Atom :=
  if f = .pinyin_search then
    let t1 := term.data.map (fun c => if c = '*' then '\x00' else c)
    let t2 := removeSpaces (normalizePinyinList t1)
    let t3 := t2.map (fun c => if c = '\x00' then '*' else c)
    { field := .pinyin_nospace, pattern := ⟨buildWildcardPattern t3⟩ }
  else { field := f, pattern := ⟨buildWildcardPattern term.data⟩ }

/-- Phrase-branch atom for one field: containment of the whole phrase. -/
def phraseAtom (term : String) (f : FieldName) : Atom :=
  { field := f, pattern := ⟨'%' :: (term.data ++ ['%'])⟩ }

/-- Plain-branch atom for one field: containment, except the pinyin field,
which is a prefix test on `pinyin_nospace` against the space-stripped
normalized term. -/
def plainAtom (term : String) (f : FieldName) : Atom :=
  if f = .pinyin_search then
    { field := .pinyin_nospace,
      pattern := ⟨removeSpaces (normalizePinyinList term.data) ++ ['%']⟩ }
  else { field := f, pattern := ⟨'%' :: (term.data ++ ['%'])⟩ }

/-- The include-shaped condition of a token (before exclusion). -/
def condBase (token : SearchToken) : Cond :=
  let ft := fieldsAndTerm token
  if token.wildcard then .ors (ft.1.map (wildcardAtom ft.2))
  else if token.phrase then .ors (ft.1.map (phraseAtom ft.2))
  else .ors (ft.1.map (plainAtom ft.2))

/-- `buildCondition` of `search.ts`: the token's condition, negated when
the token is excluded. -/
def buildCondition (token : SearchToken) : Cond :=
  if token.exclude then .nt (condBase token) else condBase token

/-! ## Ranking policy and the search pipeline (`search` of `search.ts`) -/

/-- One emitted `ORDER BY` clause. -/
inductive OrderKey where
  | pinyinExact (normalized : String)
  | chineseExact (term : String)
  | englishRank (term : String)
  | freqDesc
  | byLen (f : FieldName)
  | tradLex
deriving DecidableEq, Repr

/-- The order clauses contributed by one (non-excluded) token. -/
def keysFor (token : SearchToken) : List OrderKey :=
  let term := stripStars token.term
  if token.field = some .pinyin || isPinyin term then
    [.pinyinExact ⟨removeSpaces (normalizePinyinList term.data)⟩,
     .freqDesc, .byLen .pinyin_search]
  else if token.field = some .chinese || isChinese term then
    [.chineseExact term, .freqDesc, .byLen .traditional]
  else if token.field = some .english then
    [.englishRank term, .freqDesc, .byLen .definition]
  else
    [.freqDesc, .byLen .traditional]

/-- The `for ... break` loop over the include tokens: the first
non-excluded token contributes its clauses and the loop stops. -/
def orderLoop : List SearchToken → List OrderKey
  | [] => []
  | t :: ts => if !t.exclude then keysFor t else orderLoop ts

/-- The full `ORDER BY` clause list of a query's token list. -/
def orderKeys (tokens : List SearchToken) : List OrderKey :=
  let cls := orderLoop (tokens.filter (fun t => !t.exclude))
  if cls.isEmpty then [.freqDesc, .tradLex] else cls

/-- The English rank CASE expression: 0 for a definition starting with the
term, 1 for the term after a space, else 2. -/
def engRank (term : String) (e : DictEntry) : Nat :=
  if likeMatch (term.data ++ ['%']) e.definition.data then 0
  else if likeMatch ('%' :: ' ' :: (term.data ++ ['%'])) e.definition.data then 1
  else 2

/-- Byte-less lexicographic comparison of strings (SQLite BINARY order on
code points). -/
def lexCmp : List Char → List Char → Ordering
  | [], [] => .eq
  | [], _ :: _ => .lt
  | _ :: _, [] => .gt
  | a :: as, b :: bs =>
    match compare a.toNat b.toNat with
    | .eq => lexCmp as bs
    | o => o

/-- Comparison of two rows under one order clause. -/
def keyCmp (k : OrderKey) (e1 e2 : DictEntry) : Ordering :=
  match k with
  | .pinyinExact s =>
    compare (if e1.pinyin_nospace = s then (0 : Nat) else 1)
      (if e2.pinyin_nospace = s then (0 : Nat) else 1)
  | .chineseExact t =>
    compare (if e1.traditional = t || e1.simplified = t then (0 : Nat) else 1)
      (if e2.traditional = t || e2.simplified = t then (0 : Nat) else 1)
  | .englishRank t => compare (engRank t e1) (engRank t e2)
  | .freqDesc => compare e2.frequency e1.frequency
  | .byLen f => compare (fieldVal e1 f).length (fieldVal e2 f).length
  | .tradLex => lexCmp e1.traditional.data e2.traditional.data

/-- Lexicographic combination of the order clauses. -/
def entryCmp (ks : List OrderKey) (e1 e2 : DictEntry) : Ordering :=
  match ks with
  | [] => .eq
  | k :: rest =>
    match keyCmp k e1 e2 with
    | .eq => entryCmp rest e1 e2
    | o => o

/-- Stable insertion into a sorted list (earlier rows stay first on ties:
the inserted row precedes the rows it is inserted among exactly when it
does not compare greater). -/
def insertStable (cmp : DictEntry → DictEntry → Ordering) (x : DictEntry) :
    List DictEntry → List DictEntry
  | [] => [x]
  | y :: ys => if cmp x y = .gt then y :: insertStable cmp x ys else x :: y :: ys

/-- Stable sort of the rows under a comparison. -/
def sortEntries (cmp : DictEntry → DictEntry → Ordering)
    (l : List DictEntry) : List DictEntry :=
  l.foldr (insertStable cmp) []

/-- The WHERE-clause conditions, include tokens first then exclude tokens,
all AND-combined. -/
def whereConds (tokens : List SearchToken) : List Cond :=
  (tokens.filter (fun t => !t.exclude)).map buildCondition ++
    (tokens.filter (fun t => t.exclude)).map buildCondition

/-- Truth of the whole WHERE clause on a row. -/
def whereHolds (tokens : List SearchToken) (e : DictEntry) : Bool :=
  (whereConds tokens).all (fun c => evalCond e c)

/-- `search` of `search.ts` against a store holding `entries`: parse and
merge the query, AND all token conditions, order by the ranking policy,
then apply offset and limit. -/
def search (entries : List DictEntry) (query : String)
    (limit offset : Nat) : List DictEntry :=
  if (jsTrim query).data.isEmpty then []
  else if (mergePinyinTokens (parseQuery query)).isEmpty then []
  else if (whereConds (mergePinyinTokens (parseQuery query))).isEmpty then []
  else
    (((sortEntries (entryCmp (orderKeys (mergePinyinTokens (parseQuery query))))
          entries).filter
        (whereHolds (mergePinyinTokens (parseQuery query)))).drop offset).take
      limit

/-! ## Segmenter (`segmentChinese` of `search.ts`) -/

/-- Greedy matcher of the segmenter: try lengths `n`, ..., `1` at the head
of `s` against the vocabulary set `ws`. -/
def segTryLen (ws : String → Bool) (s : List Char) : Nat → Option Nat
  | 0 => none
  | n + 1 => if ws ⟨s.take (n + 1)⟩ then some (n + 1) else segTryLen ws s n

/-- How far one segmentation step advances: the longest vocabulary match
(up to `maxW`), or exactly one character when nothing matches. -/
def segLen (ws : String → Bool) (maxW : Nat) (s : List Char) : Nat :=
  match segTryLen ws s (min maxW s.length) with
  | some l => l
  | none => 1

/-- The segmentation loop.  Fuel equal to the remaining length is never
exhausted since every step consumes at least one character. -/
def segGo (ws : String → Bool) (lookup : String → List DictEntry)
    (maxW : Nat) : Nat → List Char → List (String × List DictEntry)
  | _, [] => []
  | 0, _ :: _ => []
  | fuel + 1, c :: rest =>
    (⟨(c :: rest).take (segLen ws maxW (c :: rest))⟩,
      lookup ⟨(c :: rest).take (segLen ws maxW (c :: rest))⟩) ::
      segGo ws lookup maxW fuel ((c :: rest).drop (segLen ws maxW (c :: rest)))

/-- `segmentChinese` of `search.ts`: filter the input to its
Chinese-script characters, then greedily segment them against the
vocabulary oracle `ws` (entry lookup via `lookup`). -/
def segmentChinese (ws : String → Bool) (lookup : String → List DictEntry)
    (text : String) (maxW : Nat) : List (String × List DictEntry) :=
  if text.data.isEmpty then []
  else if (text.data.filter isChineseChar).isEmpty then []
  else
    segGo ws lookup maxW (text.data.filter isChineseChar).length
      (text.data.filter isChineseChar)

/-! ## Suggestion generator (`getSuggestions` of `search.ts`)

The entry store is an external collaborator; it enters the model as two
oracles: `defsLike pat` — the store's answer (a list of `definition`
column values) to the bounded `LIKE pat` sample queries — and
`pinyinExists key` — whether some entry has `pinyin_nospace = key`.
The SQL `LIMIT` bounds are applied to the oracle's answer. -/

/-- JS `\w` class (ASCII): letters, digits, underscore. -/
def isWordChar (c : Char) : Bool :=
  isLowerAZ c || ('A' ≤ c && c ≤ 'Z') || ('0' ≤ c && c ≤ '9') || c = '_'

/-- ASCII letter test. -/
def isAlphaChar (c : Char) : Bool := isLowerAZ c || ('A' ≤ c && c ≤ 'Z')

/-- Maximal runs of characters satisfying `p` (fuel = list length). -/
def runsGo (p : Char → Bool) : Nat → List Char → List (List Char)
  | _, [] => []
  | 0, _ :: _ => []
  | fuel + 1, c :: cs =>
    if p c then (c :: cs.takeWhile p) :: runsGo p fuel (cs.dropWhile p)
    else runsGo p fuel cs

/-- `definition.toLowerCase().match(/\b[a-zA-Z]{3,}\b/g)`: the all-letter
maximal word runs of length at least 3. -/
def extractWords (s : String) : List String :=
  let t := lowerStr s.data
  ((runsGo isWordChar t.length t).filter
      (fun r => r.all isAlphaChar && r.length ≥ 3)).map (fun r => (⟨r⟩ : String))

/-- `|a - b|` on `Nat`. -/
def natAbsDiff (a b : Nat) : Nat := max a b - min a b

/-- Count aligned equal characters (over the common length). -/
def countMatches : List Char → List Char → Nat
  | a :: as, b :: bs => (if a = b then 1 else 0) + countMatches as bs
  | _, _ => 0

/-- `isSimilar` of `search.ts`: same first letter, length difference at
most 1, and at most 2 mismatched aligned characters. -/
def isSimilar (w1 w2 : String) : Bool :=
  if natAbsDiff w1.length w2.length > 2 then false
  else if w1.data.head? = w2.data.head? && natAbsDiff w1.length w2.length ≤ 1 then
    countMatches w1.data w2.data ≥ min w1.length w2.length - 2
  else false

/-- The common-substitution table of `generateVariants`. -/
def subMap (c : Char) : Option Char :=
  if c = 'a' then some 'e' else if c = 'e' then some 'a'
  else if c = 'i' then some 'y' else if c = 'y' then some 'i'
  else if c = 'o' then some 'u' else if c = 'u' then some 'o'
  else none

/-- `generateVariants` of `search.ts`: single deletions, adjacent
transpositions, and common vowel substitutions. -/
def generateVariants (word : String) : List String :=
  let w := word.data
  let dels := (List.range w.length).map
    (fun i => (⟨w.take i ++ w.drop (i + 1)⟩ : String))
  let trans := (List.range (w.length - 1)).map
    (fun i => (⟨w.take i ++ [w.getD (i + 1) ' ', w.getD i ' '] ++ w.drop (i + 2)⟩ : String))
  let subs := (List.range w.length).filterMap
    (fun i => (subMap (w.getD i ' ')).map
      (fun r => (⟨w.take i ++ r :: w.drop (i + 1)⟩ : String)))
  dels ++ trans ++ subs

/-- The working alphabet of the pinyin variant generator. -/
def alphaChars : List Char := "abcdefghijklmnopqrstuvwxyz".data

/-- `generatePinyinVariants` of `search.ts`: all edit-distance-1 variants
(deletions, adjacent transpositions, substitutions, insertions). -/
def generatePinyinVariants (word : String) : List String :=
  let w := word.data
  let dels := (List.range w.length).map
    (fun i => (⟨w.take i ++ w.drop (i + 1)⟩ : String))
  let trans := (List.range (w.length - 1)).map
    (fun i => (⟨w.take i ++ [w.getD (i + 1) ' ', w.getD i ' '] ++ w.drop (i + 2)⟩ : String))
  let subs := ((List.range w.length).map
    (fun i => (alphaChars.filter (fun c => c ≠ w.getD i ' ')).map
      (fun c => (⟨w.take i ++ c :: w.drop (i + 1)⟩ : String)))).flatten
  let ins := ((List.range (w.length + 1)).map
    (fun i => alphaChars.map
      (fun c => (⟨w.take i ++ c :: w.drop i⟩ : String)))).flatten
  dels ++ trans ++ subs ++ ins

/-- Ordered-set insertion (JS `Set` preserves insertion order). -/
def addUniq (l : List String) (s : String) : List String :=
  if l.contains s then l else l ++ [s]

/-- Inner loop of suggestion strategy 1 over the words of one definition
(with the `break` once `limit` suggestions are collected). -/
def addWords (query : String) (limit : Nat) (sugg : List String) :
    List String → List String
  | [] => sugg
  | w :: ws =>
    if w ≠ query && isSimilar query w then
      let s2 := addUniq sugg w
      if s2.length ≥ limit then s2 else addWords query limit s2 ws
    else addWords query limit sugg ws

/-- Strategy 1 of `getSuggestions`: similar words from definitions that
contain a short prefix of the query. -/
def strat1 (query : String) (limit : Nat) (sugg : List String) :
    List String → List String
  | [] => sugg
  | row :: rows =>
    let s2 := addWords query limit sugg (extractWords row)
    if s2.length ≥ limit then s2 else strat1 query limit s2 rows

/-- Strategy 2 of `getSuggestions`: spelling variants probed as whole
words in the corpus. -/
def strat2 (defsLike : String → List String) (query : String) (limit : Nat)
    (sugg : List String) : List String → List String
  | [] => sugg
  | v :: vs =>
    if sugg.length ≥ limit then sugg
    else
      let rows := (defsLike ("% " ++ v ++ " %")).take 3
      let s2 := rows.foldl
        (fun acc row =>
          (extractWords row).foldl
            (fun acc2 w => if w = v && w ≠ query then addUniq acc2 w else acc2)
            acc)
        sugg
      strat2 defsLike query limit s2 vs

/-- `sharedPrefixLen` of `getPinyinSuggestions`: length of the common
front segment of two character lists. -/
def sharedPrefixLen : List Char → List Char → Nat
  | x :: xs, y :: ys => if x = y then sharedPrefixLen xs ys + 1 else 0
  | _, _ => 0

/-- Stable descending insertion by a numeric key (model of JS stable
`sort((a, b) => key(b) - key(a))`). -/
def insertByKey (key : String → Nat) (x : String) :
    List String → List String
  | [] => [x]
  | y :: ys => if key x ≥ key y then x :: y :: ys else y :: insertByKey key x ys

/-- Stable descending sort by a numeric key. -/
def sortByKeyDesc (key : String → Nat) (l : List String) : List String :=
  l.foldr (insertByKey key) []

/-- Keep, in probe order, the first `limit` variants the store knows. -/
def pickExisting (pinyinExists : String → Bool) (limit : Nat)
    (acc : List String) : List String → List String
  | [] => acc
  | v :: vs =>
    if pinyinExists v then
      let acc2 := acc ++ [v]
      if acc2.length ≥ limit then acc2 else pickExisting pinyinExists limit acc2 vs
    else pickExisting pinyinExists limit acc vs

/-- `getPinyinSuggestions` of `search.ts`. -/
def getPinyinSuggestions (pinyinExists : String → Bool) (query : String)
    (limit : Nat) : List String :=
  let normalized : String := ⟨removeSpaces (normalizePinyinList query.data)⟩
  let uniq := (generatePinyinVariants normalized).foldl
    (fun acc v =>
      if v ≠ normalized && !acc.contains v && v.length ≥ 2 then acc ++ [v] else acc)
    []
  let sorted := sortByKeyDesc (fun v => sharedPrefixLen v.data normalized.data) uniq
  pickExisting pinyinExists limit [] sorted

/-- `getSuggestions` of `search.ts`. -/
def getSuggestions (defsLike : String → List String)
    (pinyinExists : String → Bool) (query0 : String) (limit : Nat) :
    List String :=
  if (jsTrim query0).data.isEmpty then []
  else
    let query : String := jsTrim ⟨lowerStr query0.data⟩
    if isChinese query || query.data.length > 20 then []
    else if isPinyin query then getPinyinSuggestions pinyinExists query limit
    else
      let pre : String := if query.data.length ≥ 3 then ⟨query.data.take 3⟩ else query
      let rows := (defsLike ("%" ++ pre ++ "%")).take 100
      let sugg := strat1 query limit [] rows
      let sugg2 :=
        if sugg.length < limit then
          strat2 defsLike query limit sugg ((generateVariants query).take 10)
        else sugg
      sugg2.take limit

example :
    getSuggestions (fun _ => ["abcd x"]) (fun _ => false) "abc" 8 = ["abcd"] := by
  decide

/-! ## Helper lemmas -/

theorem lowerChar_idem (c : Char) : lowerChar (lowerChar c) = lowerChar c := by
  cases h : upPairs.find? (fun p => p.1 = c) with
  | none =>
    have hc : lowerChar c = c := by rw [lowerChar, h]; rfl
    rw [hc]
    exact hc
  | some p =>
    have hc : lowerChar c = p.2 := by rw [lowerChar, h]; rfl
    rw [hc]
    have hmem : p ∈ upPairs := List.mem_of_find?_eq_some h
    fin_cases hmem <;> decide

theorem vmap_ne_v (c : Char) : vmap c ≠ 'v' := by
  unfold vmap
  split
  · decide
  · assumption

theorem toneMarkInfo_vowel {c v : Char} {t : Nat}
    (h : toneMarkInfo c = some (v, t)) :
    v = 'a' ∨ v = 'e' ∨ v = 'i' ∨ v = 'o' ∨ v = 'u' ∨ v = 'ü' := by
  unfold toneMarkInfo at h
  cases hf : toneMarkPairs.find? (fun p => p.1 = c) with
  | none => rw [hf] at h; exact Option.noConfusion h
  | some p =>
    rw [hf] at h
    have h2 : p.2 = (v, t) := by simpa using h
    have hv : p.2.1 = v := congrArg Prod.fst h2
    subst hv
    have hmem : p ∈ toneMarkPairs := List.mem_of_find?_eq_some hf
    fin_cases hmem <;> decide

theorem normChar_idem {c c' : Char} (h : normChar c = some c') :
    normChar c' = some c' := by
  by_cases hd : isToneDigit (vmap (lowerChar c)) = true
  · rw [normChar, if_pos hd] at h
    exact Option.noConfusion h
  · rw [normChar, if_neg hd] at h
    have hc' : c' = unvmap (markBase (vmap (lowerChar c))) :=
      (Option.some_inj.mp h).symm
    cases hm : toneMarkInfo (vmap (lowerChar c)) with
    | some p =>
      have hb : markBase (vmap (lowerChar c)) = p.1 := by
        unfold markBase; rw [hm]
      have hv := toneMarkInfo_vowel (v := p.1) (t := p.2) (by simpa using hm)
      subst hc'
      rw [hb]
      rcases hv with h1 | h1 | h1 | h1 | h1 | h1 <;> rw [h1] <;> decide
    | none =>
      have hb : markBase (vmap (lowerChar c)) = vmap (lowerChar c) := by
        unfold markBase; rw [hm]
      rw [hb] at hc'
      by_cases hu : vmap (lowerChar c) = 'ü'
      · rw [hu] at hc'
        subst hc'
        decide
      · -- a plain character: it survives every stage of the pipeline
        have hlv : lowerChar c ≠ 'v' := by
          intro hv
          rw [vmap, if_pos hv] at hu
          exact hu rfl
        have hveq : vmap (lowerChar c) = lowerChar c := by
          rw [vmap, if_neg hlv]
        have hu2 : lowerChar c ≠ 'ü' := fun hx => hu (hveq.trans hx)
        have hc'2 : c' = lowerChar c := by
          rw [hc', hveq, unvmap, if_neg hu2]
        subst hc'2
        rw [normChar, lowerChar_idem, hveq]
        rw [if_neg (hveq ▸ hd)]
        have hm2 : toneMarkInfo (lowerChar c) = none := by
          rw [← hveq]; exact hm
        have hmb : markBase (lowerChar c) = lowerChar c := by
          unfold markBase; rw [hm2]
        rw [hmb, unvmap, if_neg hu2]

theorem normList_idem (l : List Char) :
    normalizePinyinList (normalizePinyinList l) = normalizePinyinList l := by
  induction l with
  | nil => rfl
  | cons c cs ih =>
    unfold normalizePinyinList at ih ⊢
    rw [List.filterMap_cons]
    cases h : normChar c with
    | none => simpa using ih
    | some c' =>
      rw [List.filterMap_cons, normChar_idem h]
      simpa using ih

/-! ## Claim theorems -/

/-- C7: `normalizeForSearch` (`normalizePinyinInput`) is idempotent, and it
is case-insensitive on the example: `normalizeForSearch "NI3" =
normalizeForSearch "ni3" = "ni"`. -/
theorem normalizePinyinInput_idempotent_case_insensitive :
    (∀ x : String,
        normalizePinyinInput (normalizePinyinInput x) = normalizePinyinInput x) ∧
    normalizePinyinInput "NI3" = normalizePinyinInput "ni3" ∧
    normalizePinyinInput "ni3" = "ni" := by
  refine ⟨fun x => ?_, by decide, by decide⟩
  show (⟨normalizePinyinList (normalizePinyinList x.data)⟩ : String) = _
  rw [normList_idem]
  rfl

/-- C8 counterexample: `"X?"` fails the syllable shape (it is malformed),
yet `toneNumberToMark` does not return it unchanged — the lenient fallback
returns the lower-cased image `"x?"`. -/
theorem toneNumberToMark_malformed_cex :
    splitBaseTone "X?".data = none ∧
    splitBaseTone ((lowerStr "X?".data).map vmap) = none ∧
    toneNumberToMark "X?" ≠ "X?" := by
  decide

/-- C8 (amended): for every input whose lower-cased, `v`→`ü`-mapped image
fails the syllable shape `[a-zü]+[1-5]?`, `toneNumberToMark` returns that
image (so malformed input that is already lower-case and `v`-free is
returned unchanged). -/
theorem toneNumberToMark_malformed (s : String)
    (h : splitBaseTone ((lowerStr s.data).map vmap) = none) :
    toneNumberToMark s = ⟨(lowerStr s.data).map vmap⟩ := by
  unfold toneNumberToMark
  simp only [h]

/-- C8 witness: the malformed `"x?"` is returned unchanged. -/
theorem toneNumberToMark_malformed_witness :
    toneNumberToMark "x?" = "x?" :=
  toneNumberToMark_malformed "x?" (by decide)

/-- C9 counterexample: a query of 21 characters (trailing whitespace) is
longer than 20 characters, yet `getSuggestions` still generates a
(non-empty) suggestion list, because the length guard is applied only
after trimming. -/
theorem getSuggestions_long_query_cex :
    ("abc                  " : String).data.length > 20 ∧
    getSuggestions (fun _ => ["abcd x"]) (fun _ => false)
        "abc                  " 8 = ["abcd"] := by
  decide

/-- C9 (amended): whenever the lower-cased, trimmed query is
Chinese-script or longer than 20 characters, `getSuggestions` returns the
empty list (for every store oracle). -/
theorem getSuggestions_guard (defsLike : String → List String)
    (pinyinExists : String → Bool) (q : String) (limit : Nat)
    (h : isChinese (jsTrim ⟨lowerStr q.data⟩) = true ∨
         (jsTrim ⟨lowerStr q.data⟩).data.length > 20) :
    getSuggestions defsLike pinyinExists q limit = [] := by
  have hcond :
      (isChinese (jsTrim ⟨lowerStr q.data⟩) ||
        decide ((jsTrim ⟨lowerStr q.data⟩).data.length > 20)) = true := by
    rcases h with h | h
    · rw [h]
      rfl
    · simp only [Bool.or_eq_true, decide_eq_true_eq]
      right
      exact h
  unfold getSuggestions
  split
  · rfl
  · rw [if_pos hcond]

/-- C9 witness: a Chinese-script query yields no suggestions. -/
theorem getSuggestions_guard_witness :
    getSuggestions (fun _ => ["abcd x"]) (fun _ => false) "好" 8 = [] :=
  getSuggestions_guard (fun _ => ["abcd x"]) (fun _ => false) "好" 8
    (Or.inl (by decide))

/-- C4: for every non-wildcard, non-phrase token, the built condition is
the OR over the resolved fields of a containment atom `%term%`, except the
pinyin field, which becomes a prefix atom `normalized%` on the
`pinyin_nospace` column, the term normalized and space-stripped. -/
theorem plain_token_condition (t : SearchToken)
    (hw : t.wildcard = false) (hp : t.phrase = false) :
    condBase t = .ors ((fieldsAndTerm t).1.map (fun f =>
      if f = FieldName.pinyin_search then
        { field := FieldName.pinyin_nospace,
          pattern :=
            ⟨removeSpaces (normalizePinyinList (fieldsAndTerm t).2.data) ++ ['%']⟩ }
      else
        { field := f,
          pattern := ⟨'%' :: ((fieldsAndTerm t).2.data ++ ['%'])⟩ })) := by
  simp [condBase, hw, hp, plainAtom, normalizePinyinInput]

/-- C4 witness at the unfielded pinyin token `ni3`. -/
theorem plain_token_condition_witness :
    condBase ⟨"ni3", none, false, false, false⟩ =
      .ors ((fieldsAndTerm ⟨"ni3", none, false, false, false⟩).1.map (fun f =>
        if f = FieldName.pinyin_search then
          { field := FieldName.pinyin_nospace,
            pattern :=
              ⟨removeSpaces (normalizePinyinList
                  (fieldsAndTerm ⟨"ni3", none, false, false, false⟩).2.data) ++
                ['%']⟩ }
        else
          { field := f,
            pattern :=
              ⟨'%' ::
                ((fieldsAndTerm ⟨"ni3", none, false, false, false⟩).2.data ++
                  ['%'])⟩ })) :=
  plain_token_condition ⟨"ni3", none, false, false, false⟩ rfl rfl

theorem keysFor_ne_nil (t : SearchToken) : (keysFor t).isEmpty = false := by
  simp only [keysFor]
  split_ifs <;> rfl

theorem orderLoop_filter (l : List SearchToken) :
    orderLoop (l.filter fun t => !t.exclude) =
      match (l.filter fun t => !t.exclude).head? with
      | none => []
      | some t => keysFor t := by
  induction l with
  | nil => rfl
  | cons a l ih =>
    by_cases ha : a.exclude = true
    · simp only [List.filter_cons, ha]
      simpa using ih
    · have ha2 : a.exclude = false := by
        cases h : a.exclude
        · rfl
        · exact absurd h ha
      simp [List.filter_cons, ha2, orderLoop]

/-- C5: the emitted sort-key list depends only on the first non-excluded
token — pinyin-typed: exact-pinyin flag, descending frequency, pinyin
length; Chinese-typed: exact traditional/simplified flag, descending
frequency, traditional length; english-typed: prefix/word-boundary rank,
descending frequency, definition length; auto: frequency then traditional
length; and with no include token at all: descending frequency then
lexicographic traditional. -/
theorem ranking_first_include_token (tokens : List SearchToken) :
    orderKeys tokens =
      match (tokens.filter fun t => !t.exclude).head? with
      | none => [.freqDesc, .tradLex]
      | some t =>
        if t.field = some .pinyin || isPinyin (stripStars t.term) then
          [.pinyinExact ⟨removeSpaces (normalizePinyinList (stripStars t.term).data)⟩,
           .freqDesc, .byLen .pinyin_search]
        else if t.field = some .chinese || isChinese (stripStars t.term) then
          [.chineseExact (stripStars t.term), .freqDesc, .byLen .traditional]
        else if t.field = some .english then
          [.englishRank (stripStars t.term), .freqDesc, .byLen .definition]
        else [.freqDesc, .byLen .traditional] := by
  unfold orderKeys
  rw [orderLoop_filter]
  cases h : (tokens.filter fun t => !t.exclude).head? with
  | none => rfl
  | some t =>
    simp only [keysFor_ne_nil, Bool.false_eq_true, if_false]
    simp [keysFor]

/-- C1: the condition built for an excluded token is the logical negation
of the include-shaped condition of the same token; all conditions (include
and exclude) are AND-combined in the WHERE clause; consequently no entry
satisfying an excluded token's include-shaped condition is ever returned
by `search`. -/
theorem exclude_negation_never_returned :
    (∀ t : SearchToken, t.exclude = true →
        buildCondition t = Cond.nt (condBase t) ∧
        buildCondition { t with exclude := false } = condBase t) ∧
    (∀ (tokens : List SearchToken) (e : DictEntry),
        whereHolds tokens e = true →
        ∀ c ∈ whereConds tokens, evalCond e c = true) ∧
    (∀ (entries : List DictEntry) (q : String) (limit offset : Nat)
        (e : DictEntry) (t : SearchToken),
        t ∈ mergePinyinTokens (parseQuery q) → t.exclude = true →
        evalCond e (condBase t) = true →
        e ∉ search entries q limit offset) := by
  refine ⟨fun t ht => ⟨by rw [buildCondition, if_pos ht], rfl⟩,
    fun tokens e hall => List.all_eq_true.mp hall, ?_⟩
  intro entries q limit offset e t hmem hexc heval hin
  unfold search at hin
  split at hin
  · simp at hin
  split at hin
  · simp at hin
  split at hin
  · simp at hin
  have h2 : e ∈ (sortEntries
      (entryCmp (orderKeys (mergePinyinTokens (parseQuery q)))) entries).filter
      (whereHolds (mergePinyinTokens (parseQuery q))) :=
    List.drop_subset _ _ (List.take_subset _ _ hin)
  have hall : whereHolds (mergePinyinTokens (parseQuery q)) e = true :=
    (List.mem_filter.mp h2).2
  have hcmem : buildCondition t ∈ whereConds (mergePinyinTokens (parseQuery q)) := by
    apply List.mem_append_right
    exact List.mem_map_of_mem buildCondition
      (List.mem_filter.mpr ⟨hmem, by simp [hexc]⟩)
  have hev : evalCond e (buildCondition t) = true :=
    List.all_eq_true.mp hall (buildCondition t) hcmem
  rw [buildCondition, if_pos hexc] at hev
  have : (!evalCond e (condBase t)) = true := hev
  rw [heval] at this
  simp at this

/-- C1 witness: with a store holding one entry whose definition contains
both `apple` and `phone`, the query `apple -phone` does not return it. -/
theorem exclude_negation_never_returned_witness :
    (⟨1, "X", "X", "p", "p", "p", "p", "apple phone", 0⟩ : DictEntry) ∉
      search [⟨1, "X", "X", "p", "p", "p", "p", "apple phone", 0⟩]
        "apple -phone" 500 0 :=
  exclude_negation_never_returned.2.2
    [⟨1, "X", "X", "p", "p", "p", "p", "apple phone", 0⟩] "apple -phone" 500 0
    ⟨1, "X", "X", "p", "p", "p", "p", "apple phone", 0⟩
    ⟨"phone", none, true, false, false⟩ (by decide) rfl (by decide)

theorem runToken_term_ne {ex : Bool} {f : Option FieldTag} {cs : List Char}
    {tok : SearchToken} {rest : List Char}
    (h : runToken ex f cs = some (tok, rest)) : tok.term ≠ "" := by
  unfold runToken at h
  split at h
  · rename_i hc
    have h2 : tok = mkToken ex f ⟨cs.takeWhile (fun c => !isSpaceChar c)⟩ false :=
      (congrArg Prod.fst (Option.some_inj.mp h)).symm
    subst h2
    intro habs
    have hrun : cs.takeWhile (fun c => !isSpaceChar c) = [] :=
      congrArg String.data habs
    simp [hrun] at hc
  · exact Option.noConfusion h

theorem quoteMatch_content_ne {cs : List Char} {content : String}
    {rest : List Char} (h : quoteMatch cs = some (content, rest)) :
    content ≠ "" := by
  unfold quoteMatch at h
  split at h
  · rename_i r
    split at h
    · exact Option.noConfusion h
    · rename_i hne
      split at h
      · have h2 : content = ⟨r.takeWhile (fun c => c ≠ '"')⟩ :=
          (congrArg Prod.fst (Option.some_inj.mp h)).symm
        subst h2
        intro habs
        exact hne (by simpa using congrArg String.data habs)
      · exact Option.noConfusion h
  · exact Option.noConfusion h

theorem afterDash_term_ne {ex : Bool} {orig cs1 : List Char}
    {tok : SearchToken} {rest : List Char}
    (h : afterDash ex orig cs1 = some (tok, rest)) : tok.term ≠ "" := by
  unfold afterDash at h
  split at h
  · rename_i content rest' hq
    have h2 : tok = mkToken ex (matchFieldPre cs1).1 content true :=
      (congrArg Prod.fst (Option.some_inj.mp h)).symm
    subst h2
    exact quoteMatch_content_ne hq
  · split at h
    · rename_i r hr
      rw [Option.some_inj.mp h] at hr
      exact runToken_term_ne hr
    · split at h
      · rename_i r hr
        rw [Option.some_inj.mp h] at hr
        split at hr
        · exact runToken_term_ne hr
        · exact Option.noConfusion hr
      · split at h
        · exact runToken_term_ne h
        · exact Option.noConfusion h

theorem nextMatch_term_ne {cs0 : List Char} {tok : SearchToken}
    {rest : List Char} (h : nextMatch cs0 = some (tok, rest)) :
    tok.term ≠ "" := by
  unfold nextMatch at h
  split at h
  · exact Option.noConfusion h
  · split at h
    · exact afterDash_term_ne h
    · exact afterDash_term_ne h

theorem parseLoop_term_ne (n : Nat) :
    ∀ (cs : List Char), ∀ t ∈ parseLoop n cs, t.term ≠ "" := by
  induction n with
  | zero => intro cs t ht; simp [parseLoop] at ht
  | succ k ih =>
    intro cs t ht
    unfold parseLoop at ht
    split at ht
    · simp at ht
    · rename_i tok rest hn
      rcases List.mem_cons.mp ht with h1 | h1
      · subst h1; exact nextMatch_term_ne hn
      · exact ih rest t h1

theorem joinTerms_ne {buf : List SearchToken} (hlen : buf.length > 1)
    (hbuf : ∀ u ∈ buf, u.term ≠ "") : joinTerms buf ≠ [] := by
  match buf with
  | [] => simp at hlen
  | [t] => simp at hlen
  | t :: u :: ts =>
    show t.term.data ++ ' ' :: joinTerms (u :: ts) ≠ []
    simp

theorem flushBuf_term_ne {buf : List SearchToken}
    (hbuf : ∀ u ∈ buf, u.term ≠ "") : ∀ t ∈ flushBuf buf, t.term ≠ "" := by
  intro t ht
  unfold flushBuf at ht
  split at ht
  · rename_i hlen
    rcases List.mem_singleton.mp ht with rfl
    intro habs
    exact joinTerms_ne hlen hbuf (congrArg String.data habs)
  · exact hbuf t ht

theorem mergeGo_term_ne (ts : List SearchToken) :
    ∀ (buf : List SearchToken), (∀ u ∈ buf, u.term ≠ "") →
      (∀ u ∈ ts, u.term ≠ "") → ∀ t ∈ mergeGo buf ts, t.term ≠ "" := by
  induction ts with
  | nil =>
    intro buf hbuf _ t ht
    exact flushBuf_term_ne hbuf t ht
  | cons a ts ih =>
    intro buf hbuf hts t ht
    unfold mergeGo at ht
    split at ht
    · refine ih (buf ++ [a]) ?_ (fun u hu => hts u (List.mem_cons_of_mem a hu)) t ht
      intro u hu
      rcases List.mem_append.mp hu with h1 | h1
      · exact hbuf u h1
      · rw [List.mem_singleton.mp h1]
        exact hts a (List.mem_cons_self a ts)
    · rcases List.mem_append.mp ht with h1 | h1
      · exact flushBuf_term_ne hbuf t h1
      · rcases List.mem_cons.mp h1 with h2 | h2
        · rw [h2]
          exact hts a (List.mem_cons_self a ts)
        · exact ih [] (by simp) (fun u hu => hts u (List.mem_cons_of_mem a hu)) t h2

/-- C10: every token produced by `parseQuery` has a non-empty term, and
`mergePinyinTokens` preserves this invariant. -/
theorem tokens_have_nonempty_terms :
    (∀ (q : String), ∀ t ∈ parseQuery q, t.term ≠ "") ∧
    (∀ (ts : List SearchToken), (∀ u ∈ ts, u.term ≠ "") →
      ∀ t ∈ mergePinyinTokens ts, t.term ≠ "") :=
  ⟨fun q t ht => parseLoop_term_ne MAX_TOKENS _ t ht,
   fun ts hts t ht => mergeGo_term_ne ts [] (by simp) hts t ht⟩

/-- C10 witness: the merged token of `"ni3 hao3"` has a non-empty term. -/
theorem tokens_have_nonempty_terms_witness :
    (⟨"ni3 hao3", none, false, false, false⟩ : SearchToken).term ≠ "" :=
  tokens_have_nonempty_terms.2 (parseQuery "ni3 hao3")
    (tokens_have_nonempty_terms.1 "ni3 hao3")
    ⟨"ni3 hao3", none, false, false, false⟩ (by decide)

theorem mergeGo_run (run : List SearchToken) :
    ∀ (buf : List SearchToken) (b : SearchToken) (rest : List SearchToken),
      (∀ u ∈ run, mergeable u = true) → mergeable b = false →
      mergeGo buf (run ++ b :: rest) =
        flushBuf (buf ++ run) ++ b :: mergeGo [] rest := by
  induction run with
  | nil =>
    intro buf b rest _ hb
    rw [List.nil_append, List.append_nil, mergeGo, hb]
    simp
  | cons u run' ih =>
    intro buf b rest hrun hb
    rw [List.cons_append, mergeGo, hrun u (List.mem_cons_self u run')]
    simp only [if_true]
    rw [ih (buf ++ [u]) b rest (fun v hv => hrun v (List.mem_cons_of_mem u hv)) hb]
    rw [List.append_assoc]
    rfl

theorem mergeGo_all (run : List SearchToken) :
    ∀ (buf : List SearchToken), (∀ u ∈ run, mergeable u = true) →
      mergeGo buf run = flushBuf (buf ++ run) := by
  induction run with
  | nil =>
    intro buf _
    rw [List.append_nil, mergeGo]
  | cons u run' ih =>
    intro buf hrun
    rw [mergeGo, hrun u (List.mem_cons_self u run')]
    simp only [if_true]
    rw [ih (buf ++ [u]) (fun v hv => hrun v (List.mem_cons_of_mem u hv))]
    rw [List.append_assoc]
    rfl

/-- C6: a maximal run of consecutive mergeable tokens (non-excluded,
unfielded, non-wildcard, non-phrase, pinyin-classified) collapses: a
breaking token flushes the pending run first; a flushed run of two or more
becomes one synthetic unfielded token whose term is the space-joined
concatenation; a run of one passes through unchanged; and parsing
`"ni3 hao3"` yields exactly one merged token. -/
theorem merger_collapses_runs :
    (∀ (run : List SearchToken) (b : SearchToken) (rest : List SearchToken),
        (∀ u ∈ run, mergeable u = true) → mergeable b = false →
        mergePinyinTokens (run ++ b :: rest) =
          flushBuf run ++ b :: mergePinyinTokens rest) ∧
    (∀ (run : List SearchToken), (∀ u ∈ run, mergeable u = true) →
        mergePinyinTokens run = flushBuf run) ∧
    (∀ (run : List SearchToken), 1 < run.length →
        flushBuf run =
          [⟨⟨joinTerms run⟩, none, false, false, false⟩]) ∧
    (∀ t : SearchToken, flushBuf [t] = [t]) ∧
    mergePinyinTokens (parseQuery "ni3 hao3") =
      [⟨"ni3 hao3", none, false, false, false⟩] := by
  refine ⟨?_, ?_, ?_, ?_, by decide⟩
  · intro run b rest hrun hb
    have h := mergeGo_run run [] b rest hrun hb
    rw [List.nil_append] at h
    exact h
  · intro run hrun
    have h := mergeGo_all run [] hrun
    rw [List.nil_append] at h
    exact h
  · intro run hlen
    rw [flushBuf, if_pos hlen]
  · intro t
    rfl

/-- C6 witness: two pinyin tokens followed by a breaking (excluded) token
merge into the synthetic token, then the breaker. -/
theorem merger_collapses_runs_witness :
    mergePinyinTokens
        [⟨"ni3", none, false, false, false⟩,
         ⟨"hao3", none, false, false, false⟩,
         ⟨"phone", none, true, false, false⟩] =
      flushBuf
          [⟨"ni3", none, false, false, false⟩,
           ⟨"hao3", none, false, false, false⟩] ++
        (⟨"phone", none, true, false, false⟩ : SearchToken) ::
          mergePinyinTokens [] :=
  merger_collapses_runs.1
    [⟨"ni3", none, false, false, false⟩, ⟨"hao3", none, false, false, false⟩]
    ⟨"phone", none, true, false, false⟩ [] (by decide) (by decide)

theorem segTryLen_pos {ws : String → Bool} {s : List Char} {n l : Nat}
    (h : segTryLen ws s n = some l) : 1 ≤ l := by
  induction n with
  | zero => simp [segTryLen] at h
  | succ k ih =>
    unfold segTryLen at h
    split at h
    · simp only [Option.some.injEq] at h
      omega
    · exact ih h

theorem segLen_pos (ws : String → Bool) (maxW : Nat) (s : List Char) :
    1 ≤ segLen ws maxW s := by
  unfold segLen
  split
  · rename_i l h
    exact segTryLen_pos h
  · exact Nat.le_refl 1

theorem segGo_flatten (ws : String → Bool) (lookup : String → List DictEntry)
    (maxW : Nat) :
    ∀ (fuel : Nat) (s : List Char), s.length ≤ fuel →
      ((segGo ws lookup maxW fuel s).map (fun p => p.1.data)).flatten = s := by
  intro fuel
  induction fuel with
  | zero =>
    intro s hs
    have hnil : s = [] := List.eq_nil_of_length_eq_zero (Nat.le_zero.mp hs)
    rw [hnil]
    rfl
  | succ k ih =>
    intro s hs
    match s with
    | [] => rfl
    | c :: rest =>
      rw [segGo, List.map_cons, List.flatten_cons]
      rw [ih ((c :: rest).drop (segLen ws maxW (c :: rest)))
        (by
          have h1 := segLen_pos ws maxW (c :: rest)
          have h2 : (c :: rest).length ≤ k + 1 := hs
          rw [List.length_drop]
          omega)]
      exact List.take_append_drop _ _

/-- C2: for every input string and every `maxWordLen`, the concatenation
of the words returned by `segmentChinese` is exactly the Chinese-script
subsequence of the input — no character skipped or duplicated (each step
advances by the matched length, or by one character when nothing
matches). -/
theorem segmentChinese_covers (ws : String → Bool)
    (lookup : String → List DictEntry) (text : String) (maxW : Nat) :
    ((segmentChinese ws lookup text maxW).map (fun p => p.1.data)).flatten =
      text.data.filter isChineseChar := by
  unfold segmentChinese
  split
  · rename_i h
    rw [List.isEmpty_iff.mp h]
    rfl
  · split
    · rename_i h
      rw [List.isEmpty_iff.mp h]
      rfl
    · exact segGo_flatten ws lookup maxW _ _ (Nat.le_refl _)

example :
    (segmentChinese (fun w => ["我", "是", "学生"].contains w) (fun _ => [])
        "我是学生" 8).map (fun p => p.1) = ["我", "是", "学生"] := by
  decide

/-! ## Round trip of tone conversion (C3) -/

/-- The lower-case ASCII alphabet (the letters a syllable is spelled
with; `ü` is written `v`). -/
def lowercaseLetters : List Char := "abcdefghijklmnopqrstuvwxyz".data

/-- Vowel letters in `v`-encoded spelling. -/
def isVowelV (c : Char) : Bool :=
  c = 'a' || c = 'e' || c = 'i' || c = 'o' || c = 'u' || c = 'v'

/-- A character that does not force a tone in `toneMarkToNumber`. -/
def neutralChar (c : Char) : Bool :=
  match toneMarkInfo c with
  | some (_, t) => decide (5 ≤ t)
  | none => true

theorem alpha_char_facts {c : Char} (hc : c ∈ lowercaseLetters) :
    lowerChar c = c ∧ isBaseLetter (vmap c) = true ∧
    markBase (vmap c) = vmap c ∧ neutralChar (vmap c) = true ∧
    unvmap (vmap c) = c ∧
    (isVowelV c = true → isVowel (vmap c) = true) := by
  fin_cases hc <;> exact (by decide)

theorem digit_facts {t : Nat} (h1 : 1 ≤ t) (h2 : t ≤ 4) :
    lowerChar (toneDigitChar t) = toneDigitChar t ∧
    vmap (toneDigitChar t) = toneDigitChar t ∧
    isToneDigit (toneDigitChar t) = true ∧
    (toneDigitChar t).toNat - 48 = t := by
  interval_cases t <;> exact (by decide)

theorem map_fix {f : Char → Char} :
    ∀ (l : List Char), (∀ c ∈ l, f c = c) → l.map f = l := by
  intro l
  induction l with
  | nil => intro _; rfl
  | cons a l ih =>
    intro h
    rw [List.map_cons, h a (List.mem_cons_self a l),
      ih (fun c hc => h c (List.mem_cons_of_mem a hc))]

theorem set_getD_self :
    ∀ (l : List Char) (i : Nat), i < l.length → l.set i (l.getD i ' ') = l := by
  intro l
  induction l with
  | nil => intro i h; simp at h
  | cons a l ih =>
    intro i h
    cases i with
    | zero => rfl
    | succ n =>
      show a :: l.set n ((a :: l).getD (n + 1) ' ') = a :: l
      rw [List.getD_cons_succ, ih n (Nat.lt_of_succ_lt_succ h)]

theorem splitBaseTone_concat {b : List Char} {t : Nat} (h1 : 1 ≤ t) (h2 : t ≤ 4)
    (hb : b ≠ []) (hall : b.all isBaseLetter = true) :
    splitBaseTone (b ++ [toneDigitChar t]) = some (b, t) := by
  unfold splitBaseTone
  rw [List.getLast?_concat]
  have hd := digit_facts h1 h2
  simp only [hd.2.2.1, if_true, List.dropLast_concat]
  rw [if_pos ?_]
  · rw [hd.2.2.2]
  · simp only [Bool.and_eq_true, Bool.not_eq_true']
    exact ⟨by simpa [List.isEmpty_iff] using hb, hall⟩

theorem vowelPositions_mem {base : List Char} {p : Nat × Char}
    (h : p ∈ vowelPositions base) :
    base[p.1]? = some p.2 ∧ isVowel p.2 = true := by
  unfold vowelPositions at h
  have h1 := List.mem_filter.mp h
  exact ⟨List.mk_mem_enum_iff_getElem?.mp h1.1, h1.2⟩

theorem vowelPositions_ne_nil {b : List Char} {c : Char} (hc : c ∈ b)
    (hv : isVowel c = true) : vowelPositions b ≠ [] := by
  obtain ⟨n, hn⟩ := List.mem_iff_get.mp hc
  intro habs
  have hmem : (n.1, c) ∈ vowelPositions b := by
    unfold vowelPositions
    refine List.mem_filter.mpr ⟨?_, hv⟩
    refine List.mk_mem_enum_iff_getElem?.mpr ?_
    rw [List.getElem?_eq_getElem n.2]
    rw [← hn]
    rfl
  rw [habs] at hmem
  exact absurd hmem (List.not_mem_nil _)

theorem noSecond_spec {vps : List (Nat × Char)} (h : vps ≠ []) :
    ∃ pos v, noSecond vps = some pos ∧ (pos, v) ∈ vps := by
  match vps with
  | [] => exact absurd rfl h
  | [p1] => exact ⟨p1.1, p1.2, rfl, by simp⟩
  | p1 :: p2 :: rest => exact ⟨p2.1, p2.2, rfl, by simp⟩

theorem markPosOf_spec {b : List Char} (h : vowelPositions b ≠ []) :
    ∃ pos v, markPosOf b = some pos ∧ (pos, v) ∈ vowelPositions b := by
  cases hae : ((vowelPositions b).filter (fun p => p.2 = 'a' || p.2 = 'e')).head? with
  | some p =>
    refine ⟨p.1, p.2, ?_, ?_⟩
    · unfold markPosOf
      rw [hae]
    · have hmem : p ∈ (vowelPositions b).filter (fun p => p.2 = 'a' || p.2 = 'e') :=
        List.mem_of_mem_head? (by rw [hae]; rfl)
      exact List.mem_of_mem_filter hmem
  | none =>
    by_cases hou : containsOU b = true
    · cases ho : ((vowelPositions b).filter (fun p => p.2 = 'o')).head? with
      | some p =>
        refine ⟨p.1, p.2, ?_, ?_⟩
        · unfold markPosOf
          rw [hae, if_pos hou, ho]
        · have hmem : p ∈ (vowelPositions b).filter (fun p => p.2 = 'o') :=
            List.mem_of_mem_head? (by rw [ho]; rfl)
          exact List.mem_of_mem_filter hmem
      | none =>
        obtain ⟨pos, v, hns, hmem⟩ := noSecond_spec h
        refine ⟨pos, v, ?_, hmem⟩
        unfold markPosOf
        rw [hae, if_pos hou, ho]
        exact hns
    · obtain ⟨pos, v, hns, hmem⟩ := noSecond_spec h
      refine ⟨pos, v, ?_, hmem⟩
      unfold markPosOf
      rw [hae, if_neg hou]
      exact hns

theorem marked_info {v : Char} (hv : isVowel v = true) {t : Nat}
    (h1 : 1 ≤ t) (h2 : t ≤ 4) :
    ∃ marks, TONE_MARKS v = some marks ∧
      toneMarkInfo (marks.getD (t - 1) ' ') = some (v, t) := by
  have hv6 : v = 'a' ∨ v = 'e' ∨ v = 'i' ∨ v = 'o' ∨ v = 'u' ∨ v = 'ü' := by
    simpa [isVowel, or_assoc] using hv
  rcases hv6 with rfl | rfl | rfl | rfl | rfl | rfl <;>
    interval_cases t <;> exact ⟨_, rfl, by decide⟩

theorem toneStep_neutral {c : Char} (h : neutralChar c = true) (acc : Nat) :
    toneStep acc c = acc := by
  unfold toneStep
  unfold neutralChar at h
  cases hm : toneMarkInfo c with
  | none => simp only [hm]
  | some p =>
    obtain ⟨v, tn⟩ := p
    rw [hm] at h
    have htn : 5 ≤ tn := of_decide_eq_true h
    simp only [hm]
    rw [if_neg (by omega)]

theorem lastToneAux_append :
    ∀ (u w : List Char) (acc : Nat),
      lastToneAux (u ++ w) acc = lastToneAux w (lastToneAux u acc) := by
  intro u
  induction u with
  | nil => intro w acc; rfl
  | cons a u ih =>
    intro w acc
    rw [List.cons_append]
    simp only [lastToneAux]
    exact ih w _

theorem lastToneAux_neutral :
    ∀ (l : List Char), (∀ c ∈ l, neutralChar c = true) →
      ∀ acc, lastToneAux l acc = acc := by
  intro l
  induction l with
  | nil => intro _ acc; rfl
  | cons a l ih =>
    intro h acc
    simp only [lastToneAux]
    rw [toneStep_neutral (h a (List.mem_cons_self a l))]
    exact ih (fun c hc => h c (List.mem_cons_of_mem a hc)) acc

/-- C3: for every syllable — a non-empty word of lower-case letters
containing a vowel letter (`a`, `e`, `i`, `o`, `u`, or `v` for `ü`) —
carrying a tone digit in 1..4, converting the tone number to a tone mark
and back is the identity:
`toneMarkToNumber (toneNumberToMark s) = s`. -/
theorem tone_roundtrip (base : List Char) (t : Nat)
    (hne : base ≠ []) (hlow : ∀ c ∈ base, c ∈ lowercaseLetters)
    (hvow : ∃ c ∈ base, isVowelV c = true) (h1 : 1 ≤ t) (h2 : t ≤ 4) :
    toneMarkToNumber (toneNumberToMark ⟨base ++ [toneDigitChar t]⟩) =
      ⟨base ++ [toneDigitChar t]⟩ := by
  -- facts about the ü-mapped base
  have hbfix : ∀ d ∈ base.map vmap, markBase d = d := by
    intro d hd
    obtain ⟨c, hc, rfl⟩ := List.mem_map.mp hd
    exact (alpha_char_facts (hlow c hc)).2.2.1
  have hbneutral : ∀ d ∈ base.map vmap, neutralChar d = true := by
    intro d hd
    obtain ⟨c, hc, rfl⟩ := List.mem_map.mp hd
    exact (alpha_char_facts (hlow c hc)).2.2.2.1
  have hbletter : (base.map vmap).all isBaseLetter = true := by
    refine List.all_eq_true.mpr ?_
    intro d hd
    obtain ⟨c, hc, rfl⟩ := List.mem_map.mp hd
    exact (alpha_char_facts (hlow c hc)).2.1
  have hbne : base.map vmap ≠ [] := by
    simpa using hne
  -- the lower-case/ü-map stage is the identity up to `vmap`
  have hs1 : (lowerStr (⟨base ++ [toneDigitChar t]⟩ : String).data).map vmap
      = base.map vmap ++ [toneDigitChar t] := by
    show ((base ++ [toneDigitChar t]).map lowerChar).map vmap = _
    rw [List.map_append, List.map_append,
      map_fix base (fun c hc => (alpha_char_facts (hlow c hc)).1)]
    simp only [List.map_cons, List.map_nil, (digit_facts h1 h2).1,
      (digit_facts h1 h2).2.1]
  -- the marked position
  obtain ⟨c0, hc0, hv0⟩ := hvow
  have hvps : vowelPositions (base.map vmap) ≠ [] :=
    vowelPositions_ne_nil (List.mem_map_of_mem vmap hc0)
      ((alpha_char_facts (hlow c0 hc0)).2.2.2.2.2 hv0)
  obtain ⟨pos, v, hmark, hmem⟩ := markPosOf_spec hvps
  have hgv := vowelPositions_mem hmem
  obtain ⟨hpos, hget⟩ := List.getElem?_eq_some.mp hgv.1
  have hgetD : (base.map vmap).getD pos ' ' = v := by
    rw [List.getD_eq_getElem?_getD, hgv.1]
    rfl
  obtain ⟨marks, hmarks, hminfo⟩ := marked_info hgv.2 h1 h2
  have happly : applyMark (base.map vmap) pos t =
      (base.map vmap).set pos (marks.getD (t - 1) ' ') := by
    unfold applyMark
    rw [hgetD, hmarks]
  -- the forward direction produces exactly the marked base
  have htnm : toneNumberToMark ⟨base ++ [toneDigitChar t]⟩ =
      ⟨(base.map vmap).set pos (marks.getD (t - 1) ' ')⟩ := by
    simp only [toneNumberToMark, hs1,
      splitBaseTone_concat h1 h2 hbne hbletter, hmark]
    rw [if_neg (show ¬ t = 5 by omega)]
    rw [happly]
  -- the backward direction recovers the base letters
  have hbaseout :
      ((((base.map vmap).set pos (marks.getD (t - 1) ' ')).map markBase).map
        unvmap) = base := by
    rw [List.map_set]
    have hmb : markBase (marks.getD (t - 1) ' ') = v := by
      unfold markBase
      rw [hminfo]
    rw [hmb, map_fix (base.map vmap) hbfix, ← hgetD, set_getD_self _ _ hpos,
      List.map_map]
    exact map_fix base (fun c hc => (alpha_char_facts (hlow c hc)).2.2.2.2.1)
  -- and the accumulated tone is exactly `t`
  have htone :
      lastToneAux ((base.map vmap).set pos (marks.getD (t - 1) ' ')) 5 = t := by
    rw [List.set_eq_take_cons_drop _ hpos, lastToneAux_append,
      lastToneAux_neutral _ (fun c hc => hbneutral c (List.mem_of_mem_take hc)) 5]
    simp only [lastToneAux]
    have hstep : toneStep 5 (marks.getD (t - 1) ' ') = t := by
      unfold toneStep
      simp only [hminfo]
      rw [if_pos (show t < 5 by omega)]
    rw [hstep]
    exact lastToneAux_neutral _
      (fun c hc => hbneutral c (List.mem_of_mem_drop hc)) t
  rw [htnm]
  simp only [toneMarkToNumber, hbaseout, htone]
  rw [if_pos (show t < 5 by omega)]

/-- C3 witness: `ni3` survives the round trip. -/
theorem tone_roundtrip_witness :
    toneMarkToNumber (toneNumberToMark "ni3") = "ni3" :=
  tone_roundtrip ['n', 'i'] 3 (by decide) (by decide) ⟨'i', by decide⟩
    (by decide) (by decide)

end ChineseNext
